import Mathlib

/-
Shallow embedding of src/src/bad_safe_deque.rs: a doubly-linked deque whose
nodes live behind shared-ownership handles (Rc) with runtime-checked borrows
(RefCell).  The heap of nodes is modelled as an association list from node
ids (allocation order) to node records; a Link (Option<Rc<RefCell<Node>>>)
is modelled as an Option of a node id.  Rc::try_unwrap is modelled by a
structural reference count: the number of places (head slot, tail slot, any
node link field) that mention a given id; the local handle held by the pop
function is the one extra reference not counted, so try_unwrap succeeds
exactly when the structural count is zero.  RefCell borrow flags are
modelled separately for the peek operations (the push/pop operations take
and release all their borrows internally, so between public calls every
cell is unborrowed, and the plain state functions describe exactly that
case).
-/

namespace BadSafeDeque

variable {α : Type}

/-- Node<T> from the source: one element plus forward and backward links. -/
structure Node (α : Type) where
  elem : α
  next : Option Nat
  prev : Option Nat
deriving DecidableEq

/-- The List<T> struct from the source (named Deque here because List is
taken in Lean; the spec also calls the component Deque): the two end
handles, together with the heap of currently live nodes and a fresh-id
counter recording allocation order. -/
structure Deque (α : Type) where
  nodes : List (Nat × Node α)
  head : Option Nat
  tail : Option Nat
  fresh : Nat
deriving DecidableEq

/-- Dereference a node handle: look a node id up in the heap. -/
def lookupN : List (Nat × Node α) → Nat → Option (Node α)
  | [], _ => none
  | q :: t, i => if i = q.1 then some q.2 else lookupN t i

/-- Write a node through its handle: replace the entry with this id. -/
def updN : List (Nat × Node α) → Nat → Node α → List (Nat × Node α)
  | [], _, _ => []
  | q :: t, i, nd => (if q.1 = i then (i, nd) else q) :: updN t i nd

/-- Deallocate a node: drop the entry with this id. -/
def remN : List (Nat × Node α) → Nat → List (Nat × Node α)
  | [], _ => []
  | q :: t, i => if q.1 = i then remN t i else q :: remN t i

/-- Number of node link fields (next or prev) that reference id i. -/
def linkRefs : List (Nat × Node α) → Nat → Nat
  | [], _ => 0
  | q :: t, i =>
      (if q.2.next = some i then 1 else 0) + (if q.2.prev = some i then 1 else 0)
        + linkRefs t i

/-- Structural reference count of id i: head slot, tail slot and link
fields.  The strong count of the corresponding Rc during pop is this
number plus one for the local handle, so Rc::try_unwrap succeeds iff this
count is zero at the moment of unwrapping. -/
def refs (s : Deque α) (i : Nat) : Nat :=
  (if s.head = some i then 1 else 0) + (if s.tail = some i then 1 else 0)
    + linkRefs s.nodes i

/-- List::new from the source: both handles absent, empty heap. -/
def Deque.new : Deque α := ⟨[], none, none, 0⟩

/-- oldhead.borrow_mut().prev = p, for a node reached through handle i. -/
def setPrev (s : Deque α) (i : Nat) (p : Option Nat) : Deque α :=
  match lookupN s.nodes i with
  | some nd => { s with nodes := updN s.nodes i { nd with prev := p } }
  | none => s

/-- oldtail.borrow_mut().next = n, for a node reached through handle i. -/
def setNext (s : Deque α) (i : Nat) (n : Option Nat) : Deque α :=
  match lookupN s.nodes i with
  | some nd => { s with nodes := updN s.nodes i { nd with next := n } }
  | none => s

/-- List::push_front: allocate a node with both links absent; if there is
an old head link it to the new node in both directions, otherwise the new
node becomes head and tail. -/
def Deque.push_front (s : Deque α) (x : α) : Deque α :=
  let i := s.fresh
  match s.head with
  | some oldhead =>
      let s1 : Deque α :=
        { s with nodes := (i, ⟨x, some oldhead, none⟩) :: s.nodes
               , fresh := i + 1 }
      { setPrev s1 oldhead (some i) with head := some i }
  | none =>
      { s with nodes := (i, ⟨x, none, none⟩) :: s.nodes
             , fresh := i + 1, head := some i, tail := some i }

/-- List::push_back: mirror image of push_front. -/
def Deque.push_back (s : Deque α) (x : α) : Deque α :=
  let i := s.fresh
  match s.tail with
  | some oldtail =>
      let s1 : Deque α :=
        { s with nodes := (i, ⟨x, none, some oldtail⟩) :: s.nodes
               , fresh := i + 1 }
      { setNext s1 oldtail (some i) with tail := some i }
  | none =>
      { s with nodes := (i, ⟨x, none, none⟩) :: s.nodes
             , fresh := i + 1, head := some i, tail := some i }

/-- Result of a pop: the explicit empty result (carrying the state the
operation leaves behind), a popped value with the new state, or the
defensive-fatal panic of the Rc::try_unwrap().ok().unwrap() path. -/
inductive PopResult (α : Type) where
  | empty (s : Deque α)
  | ok (v : α) (s : Deque α)
  | panic
deriving DecidableEq

/-- List::pop_front: take the head handle (absent gives the empty result);
take the forward link out of the old head; either clear the new head
backward link and install it, or clear tail; then assert unique ownership
of the departing node (structural reference count zero besides the local
handle) and extract the element, deallocating the node. -/
def Deque.pop_front (s : Deque α) : PopResult α :=
  match s.head with
  | none => .empty { s with head := none }
  | some oldhead =>
    match lookupN s.nodes oldhead with
    | none => .panic
    | some nd =>
      let s1 : Deque α :=
        { s with head := none
               , nodes := updN s.nodes oldhead { nd with next := none } }
      let s2 : Deque α :=
        match nd.next with
        | some newhead => { setPrev s1 newhead none with head := some newhead }
        | none => { s1 with tail := none }
      if refs s2 oldhead = 0 then
        .ok nd.elem { s2 with nodes := remN s2.nodes oldhead }
      else .panic

/-- List::pop_back: mirror image of pop_front. -/
def Deque.pop_back (s : Deque α) : PopResult α :=
  match s.tail with
  | none => .empty { s with tail := none }
  | some oldtail =>
    match lookupN s.nodes oldtail with
    | none => .panic
    | some nd =>
      let s1 : Deque α :=
        { s with tail := none
               , nodes := updN s.nodes oldtail { nd with prev := none } }
      let s2 : Deque α :=
        match nd.prev with
        | some newtail => { setNext s1 newtail none with tail := some newtail }
        | none => { s1 with head := none }
      if refs s2 oldtail = 0 then
        .ok nd.elem { s2 with nodes := remN s2.nodes oldtail }
      else .panic

/-- List::peek_front: the element seen through the Ref returned on a
non-empty list (the borrow bookkeeping is modelled separately below). -/
def Deque.peek_front (s : Deque α) : Option α :=
  s.head.bind fun i => (lookupN s.nodes i).map Node.elem

/-- List::peek_back. -/
def Deque.peek_back (s : Deque α) : Option α :=
  s.tail.bind fun i => (lookupN s.nodes i).map Node.elem

/-- List::peek_front_mut: the element seen through the returned RefMut. -/
def Deque.peek_front_mut (s : Deque α) : Option α :=
  s.head.bind fun i => (lookupN s.nodes i).map Node.elem

/-- List::peek_back_mut. -/
def Deque.peek_back_mut (s : Deque α) : Option α :=
  s.tail.bind fun i => (lookupN s.nodes i).map Node.elem

/-- Writing v through the RefMut returned by peek_front_mut, when the list
is non-empty (the exclusive view is an in-place view of the head element). -/
def Deque.peek_front_mut_write (s : Deque α) (v : α) : Deque α :=
  match s.head with
  | none => s
  | some i =>
    match lookupN s.nodes i with
    | none => s
    | some nd => { s with nodes := updN s.nodes i { nd with elem := v } }

/-- Value carried by a pop result, when one was popped. -/
def PopResult.val : PopResult α → Option α
  | .ok v _ => some v
  | _ => none

/-- Whether a pop returned the explicit empty result. -/
def PopResult.isEmptyR : PopResult α → Bool
  | .empty _ => true
  | _ => false

/-- State left behind by a pop (the d argument is returned on the panic
path, where the Rust program aborts and leaves no state). -/
def PopResult.state (d : Deque α) : PopResult α → Deque α
  | .empty s => s
  | .ok _ s => s
  | .panic => d

/-- Value returned by pop_front. -/
def Deque.pop_front_val (s : Deque α) : Option α := s.pop_front.val

/-- State after pop_front. -/
def Deque.pop_front_st (s : Deque α) : Deque α := s.pop_front.state s

/-- Value returned by pop_back. -/
def Deque.pop_back_val (s : Deque α) : Option α := s.pop_back.val

/-- State after pop_back. -/
def Deque.pop_back_st (s : Deque α) : Deque α := s.pop_back.state s

/-- IntoIter from the source: it just wraps the list by value. -/
structure IntoIter (α : Type) where
  inner : Deque α

/-- List::into_iter. -/
def Deque.into_iter (s : Deque α) : IntoIter α := ⟨s⟩

/-- Iterator::next for IntoIter: self.0.pop_front(). -/
def IntoIter.next (it : IntoIter α) : PopResult α := it.inner.pop_front

/-- DoubleEndedIterator::next_back for IntoIter: self.0.pop_back(). -/
def IntoIter.next_back (it : IntoIter α) : PopResult α := it.inner.pop_back

/-- Iterator advanced one step from the front. -/
def IntoIter.stepF (it : IntoIter α) : IntoIter α := ⟨it.inner.pop_front_st⟩

/-- Iterator advanced one step from the back. -/
def IntoIter.stepB (it : IntoIter α) : IntoIter α := ⟨it.inner.pop_back_st⟩

/-- Drop for List: while self.pop_front().is_some() {}, with fuel (the
loop pops one node per iteration, so any fuel at least the node count
drains the list; the panic arm stops early, mirroring a Rust abort). -/
def dropLoop : Nat → Deque α → Deque α
  | 0, s => s
  | fuel + 1, s =>
    match s.pop_front with
    | .ok _ s2 => dropLoop fuel s2
    | _ => s

/-- Values obtained by repeatedly calling pop_front, stopping at the empty
result (or at a panic, where the program would abort). -/
def popAllFront : Nat → Deque α → List α
  | 0, _ => []
  | fuel + 1, s =>
    match s.pop_front with
    | .ok v s2 => v :: popAllFront fuel s2
    | _ => []

/-- Values obtained by repeatedly calling pop_back. -/
def popAllBack : Nat → Deque α → List α
  | 0, _ => []
  | fuel + 1, s =>
    match s.pop_back with
    | .ok v s2 => v :: popAllBack fuel s2
    | _ => []

/-- Pop-front order of a list: drain it from the front (the heap size is
enough fuel, since each pop removes one node). -/
def Deque.popFrontOrder (s : Deque α) : List α := popAllFront s.nodes.length s

/-- Pop-back order of a list: drain it from the back. -/
def Deque.popBackOrder (s : Deque α) : List α := popAllBack s.nodes.length s

/-- Forward traversal: follow next links from a starting handle. -/
def traverseFwd (h : List (Nat × Node α)) : Nat → Option Nat → List α
  | 0, _ => []
  | _ + 1, none => []
  | fuel + 1, some i =>
    match lookupN h i with
    | none => []
    | some nd => nd.elem :: traverseFwd h fuel nd.next

/-- Forward traversal order of the whole list, starting at head. -/
def Deque.toListFwd (s : Deque α) : List α :=
  traverseFwd s.nodes s.nodes.length s.head

/-- One public push operation, for quantifying over push sequences. -/
inductive PushOp (α : Type) where
  | front (x : α)
  | back (x : α)

/-- Apply a sequence of push operations in order. -/
def applyPushes (s : Deque α) : List (PushOp α) → Deque α
  | [] => s
  | .front x :: t => applyPushes (s.push_front x) t
  | .back x :: t => applyPushes (s.push_back x) t

/-- Id of the first node of a chain segment, falling back to q when the
segment is empty (q is the link that would cross the whole segment). -/
def headId : List (Nat × α) → Option Nat → Option Nat
  | [], q => q
  | (j, _) :: _, _ => some j

/-- Id of the last node of a chain segment, falling back to p. -/
def lastId : List (Nat × α) → Option Nat → Option Nat
  | [], p => p
  | (j, _) :: t, _ => lastId t (some j)

/-- chainQ h p l q: the (id, element) pairs of l form a doubly-linked
chain in heap h, the backward link of the first node being p, consecutive
nodes linked in both directions, and the forward link of the last node
being q. -/
def chainQ (h : List (Nat × Node α)) : Option Nat → List (Nat × α) → Option Nat → Prop
  | _, [], _ => True
  | p, (i, x) :: t, q =>
      lookupN h i = some ⟨x, headId t q, p⟩ ∧ chainQ h (some i) t q

/-- Ids of an abstract chain. -/
def ids (l : List (Nat × α)) : List Nat := l.map Prod.fst

/-- The representation invariant tying a deque state to the abstract list
of (node id, element) pairs it holds, front to back. -/
structure Wf (s : Deque α) (l : List (Nat × α)) : Prop where
  head_eq : s.head = l.head?.map Prod.fst
  tail_eq : s.tail = l.getLast?.map Prod.fst
  chain : chainQ s.nodes none l none
  nodup : (ids l).Nodup
  keysSub : ∀ q ∈ s.nodes, q.1 ∈ ids l
  freshBound : ∀ q ∈ s.nodes, q.1 < s.fresh
  keysND : (s.nodes.map Prod.fst).Nodup

/-- Mirror a node: exchange its two link fields. -/
def swapNode (nd : Node α) : Node α := ⟨nd.elem, nd.prev, nd.next⟩

/-- Mirror a heap: exchange the link fields of every node. -/
def swapH : List (Nat × Node α) → List (Nat × Node α)
  | [] => []
  | q :: t => (q.1, swapNode q.2) :: swapH t

/-- Mirror a deque: exchange head with tail and next with prev.  The
push_back, pop_back and peek_back operations are exactly the front
operations conjugated by this involution, which is how the source
describes them (mirror images). -/
def rev (s : Deque α) : Deque α := ⟨swapH s.nodes, s.tail, s.head, s.fresh⟩

/-- Map a function over the states inside a pop result. -/
def mapPR (f : Deque α → Deque α) : PopResult α → PopResult α
  | .empty s => .empty (f s)
  | .ok v s => .ok v (f s)
  | .panic => .panic

/-- States reachable from List::new by the public mutating operations. -/
inductive Reachable : Deque α → Prop where
  | new : Reachable Deque.new
  | pushF {s : Deque α} (x : α) : Reachable s → Reachable (s.push_front x)
  | pushB {s : Deque α} (x : α) : Reachable s → Reachable (s.push_back x)
  | popF {s s2 : Deque α} {v : α} : Reachable s → s.pop_front = .ok v s2 → Reachable s2
  | popB {s s2 : Deque α} {v : α} : Reachable s → s.pop_back = .ok v s2 → Reachable s2

/-- The structural invariants the spec states for the deque: head is absent
iff the node heap is empty iff tail is absent; any two adjacent live nodes
are linked in both directions (A.next targets B exactly when B.prev targets
A); the head node has no backward link and the tail node has no forward
link. -/
def StructInv (s : Deque α) : Prop :=
  (s.head = none ↔ s.nodes = []) ∧
  (s.tail = none ↔ s.nodes = []) ∧
  (∀ i j : Nat, ∀ ni nj : Node α, lookupN s.nodes i = some ni →
    lookupN s.nodes j = some nj → (ni.next = some j ↔ nj.prev = some i)) ∧
  (∀ i : Nat, ∀ ni : Node α, s.head = some i → lookupN s.nodes i = some ni →
    ni.prev = none) ∧
  (∀ i : Nat, ∀ ni : Node α, s.tail = some i → lookupN s.nodes i = some ni →
    ni.next = none)

/-- RefCell borrow flag of one node cell: unused, n live shared borrows,
or one live exclusive borrow (the runtime flag RefCell keeps). -/
inductive BorrowFlag where
  | unused
  | reading (n : Nat)
  | writing
deriving DecidableEq

/-- RefCell::borrow acquisition: succeeds unless exclusively borrowed. -/
def tryBorrow : BorrowFlag → Option BorrowFlag
  | .unused => some (.reading 1)
  | .reading n => some (.reading (n + 1))
  | .writing => none

/-- RefCell::borrow_mut acquisition: succeeds only on an unused cell. -/
def tryBorrowMut : BorrowFlag → Option BorrowFlag
  | .unused => some .writing
  | .reading _ => none
  | .writing => none

/-- Update the borrow flag of one cell. -/
def fupd (fl : Nat → BorrowFlag) (i : Nat) (f2 : BorrowFlag) :
    Nat → BorrowFlag :=
  fun j => if j = i then f2 else fl j

/-- Result of a peek with the borrow bookkeeping made explicit: absence on
an empty list, a view of the element together with the flags while the
returned guard is held, or the fatal panic of a conflicting borrow. -/
inductive PeekResult (α : Type) where
  | empty
  | ok (v : α) (fl : Nat → BorrowFlag)
  | conflict

/-- List::peek_front with explicit borrow flags: head.borrow() acquires a
shared borrow of the head cell and Ref::map keeps it alive inside the
returned Ref (the lookup-failure arm is unreachable for a live handle). -/
def peekFrontB (s : Deque α) (fl : Nat → BorrowFlag) : PeekResult α :=
  match s.head with
  | none => .empty
  | some i =>
    match lookupN s.nodes i, tryBorrow (fl i) with
    | some nd, some f2 => .ok nd.elem (fupd fl i f2)
    | some _, none => .conflict
    | none, _ => .conflict

/-- List::peek_front_mut with explicit borrow flags: head.borrow_mut()
acquires the exclusive borrow of the head cell. -/
def peekFrontMutB (s : Deque α) (fl : Nat → BorrowFlag) : PeekResult α :=
  match s.head with
  | none => .empty
  | some i =>
    match lookupN s.nodes i, tryBorrowMut (fl i) with
    | some nd, some f2 => .ok nd.elem (fupd fl i f2)
    | some _, none => .conflict
    | none, _ => .conflict

/-- State after pushing 1, 2, 3 with push_front onto a new list. -/
def sA : Deque Nat := ((Deque.new.push_front 1).push_front 2).push_front 3

/-- Scenario state after one pop_front from sA. -/
def sB : Deque Nat := sA.pop_front_st

/-- Scenario state after two pop_front from sA. -/
def sC : Deque Nat := sB.pop_front_st

/-- Scenario state after additionally pushing 4 and 5 with push_front. -/
def sD : Deque Nat := (sC.push_front 4).push_front 5

/-- Scenario state after one pop_front from sD. -/
def sE : Deque Nat := sD.pop_front_st

/-- Scenario state after two pop_front from sD. -/
def sF : Deque Nat := sE.pop_front_st

/-- Scenario state after three pop_front from sD. -/
def sG : Deque Nat := sF.pop_front_st

/-- The push sequence used to refute C3 as stated. -/
def c3s : Deque Nat := applyPushes Deque.new [.front 1, .front 2]

/-- The consuming iterator over sA. -/
def itA : IntoIter Nat := sA.into_iter

/-- Iterator after yielding one element from the front. -/
def itB : IntoIter Nat := itA.stepF

/-- Iterator after additionally yielding one element from the back. -/
def itC : IntoIter Nat := itB.stepB

/-- Iterator after additionally yielding one more element from the front. -/
def itD : IntoIter Nat := itC.stepF

theorem mem_of_lookupN {h : List (Nat × Node α)} {i : Nat} {nd : Node α}
    (hl : lookupN h i = some nd) : (i, nd) ∈ h := by
  induction h with
  | nil => simp [lookupN] at hl
  | cons q t ih =>
    rw [lookupN] at hl
    by_cases hi : i = q.1
    · rw [if_pos hi] at hl
      injection hl with hnd
      cases q with
      | mk a b =>
        cases hi
        cases hnd
        exact List.mem_cons_self _ _
    · rw [if_neg hi] at hl
      exact List.mem_cons_of_mem _ (ih hl)

theorem mem_keys_of_lookupN {h : List (Nat × Node α)} {i : Nat} {nd : Node α}
    (hl : lookupN h i = some nd) : i ∈ h.map Prod.fst :=
  List.mem_map_of_mem Prod.fst (mem_of_lookupN hl)

theorem lookupN_of_mem {h : List (Nat × Node α)} (hnd : (h.map Prod.fst).Nodup)
    {i : Nat} {nd : Node α} (hm : (i, nd) ∈ h) : lookupN h i = some nd := by
  induction h with
  | nil => cases hm
  | cons q t ih =>
    rw [List.map_cons, List.nodup_cons] at hnd
    rcases List.mem_cons.mp hm with hq | ht
    · rw [← hq, lookupN, if_pos rfl]
    · have hi : i ≠ q.1 := by
        intro hh
        apply hnd.1
        rw [← hh]
        exact List.mem_map_of_mem Prod.fst ht
      rw [lookupN, if_neg hi]
      exact ih hnd.2 ht

theorem lookupN_isSome_iff {h : List (Nat × Node α)} {i : Nat} :
    (lookupN h i).isSome = true ↔ i ∈ h.map Prod.fst := by
  induction h with
  | nil => simp [lookupN]
  | cons q t ih =>
    rw [lookupN, List.map_cons]
    by_cases hi : i = q.1
    · simp [hi]
    · simp [hi, ih]

theorem lookupN_updN (h : List (Nat × Node α)) (i j : Nat) (nd : Node α) :
    lookupN (updN h i nd) j =
      if j = i then (lookupN h i).map (fun _ => nd) else lookupN h j := by
  induction h with
  | nil => simp [updN, lookupN]
  | cons q t ih =>
    simp only [updN, lookupN]
    by_cases hq : q.1 = i <;> by_cases hj : j = i <;> by_cases hjq : j = q.1 <;>
      simp_all [lookupN]

theorem keys_updN (h : List (Nat × Node α)) (i : Nat) (nd : Node α) :
    (updN h i nd).map Prod.fst = h.map Prod.fst := by
  induction h with
  | nil => rfl
  | cons q t ih =>
    by_cases hq : q.1 = i <;> simp [updN, hq, ih]

theorem mem_updN_elim {h : List (Nat × Node α)} {i : Nat} {nd : Node α}
    {q : Nat × Node α} (hm : q ∈ updN h i nd) :
    q = (i, nd) ∨ (q ∈ h ∧ q.1 ≠ i) := by
  induction h with
  | nil => cases hm
  | cons r t ih =>
    rw [updN] at hm
    rcases List.mem_cons.mp hm with hr | ht
    · by_cases hri : r.1 = i
      · rw [if_pos hri] at hr
        exact Or.inl hr
      · rw [if_neg hri] at hr
        subst hr
        exact Or.inr ⟨List.mem_cons_self _ _, hri⟩
    · rcases ih ht with hl | ⟨hq2, hne⟩
      · exact Or.inl hl
      · exact Or.inr ⟨List.mem_cons_of_mem _ hq2, hne⟩

theorem lookupN_remN (h : List (Nat × Node α)) (i j : Nat) :
    lookupN (remN h i) j = if j = i then none else lookupN h j := by
  induction h with
  | nil => simp [remN, lookupN]
  | cons q t ih =>
    simp only [remN]
    by_cases hq : q.1 = i <;> by_cases hj : j = i <;> by_cases hjq : j = q.1 <;>
      simp_all [lookupN]

theorem mem_remN {h : List (Nat × Node α)} {i : Nat} {q : Nat × Node α}
    (hm : q ∈ remN h i) : q ∈ h ∧ q.1 ≠ i := by
  induction h with
  | nil => cases hm
  | cons r t ih =>
    rw [remN] at hm
    by_cases hri : r.1 = i
    · rw [if_pos hri] at hm
      rcases ih hm with ⟨h1, h2⟩
      exact ⟨List.mem_cons_of_mem _ h1, h2⟩
    · rw [if_neg hri] at hm
      rcases List.mem_cons.mp hm with hr | ht
      · subst hr
        exact ⟨List.mem_cons_self _ _, hri⟩
      · rcases ih ht with ⟨h1, h2⟩
        exact ⟨List.mem_cons_of_mem _ h1, h2⟩

theorem remN_sublist (h : List (Nat × Node α)) (i : Nat) :
    List.Sublist (remN h i) h := by
  induction h with
  | nil => simp [remN]
  | cons r t ih =>
    rw [remN]
    by_cases hri : r.1 = i
    · rw [if_pos hri]
      exact ih.cons r
    · rw [if_neg hri]
      exact ih.cons₂ r

theorem headId_nil (q : Option Nat) : headId ([] : List (Nat × α)) q = q := rfl

theorem headId_cons (i : Nat) (x : α) (t : List (Nat × α)) (q : Option Nat) :
    headId ((i, x) :: t) q = some i := rfl

theorem lastId_nil (p : Option Nat) : lastId ([] : List (Nat × α)) p = p := rfl

theorem lastId_cons (i : Nat) (x : α) (t : List (Nat × α)) (p : Option Nat) :
    lastId ((i, x) :: t) p = lastId t (some i) := rfl

theorem lastId_concat (l : List (Nat × α)) (i : Nat) (x : α) (p : Option Nat) :
    lastId (l ++ [(i, x)]) p = some i := by
  induction l generalizing p with
  | nil => rfl
  | cons r t ih =>
    cases r with
    | mk j y =>
      rw [List.cons_append, lastId_cons]
      exact ih _

theorem headId_append (l1 l2 : List (Nat × α)) (q : Option Nat) :
    headId (l1 ++ l2) q = headId l1 (headId l2 q) := by
  cases l1 with
  | nil => rfl
  | cons r t => cases r; rfl

theorem lastId_append (l1 l2 : List (Nat × α)) (p : Option Nat) :
    lastId (l1 ++ l2) p = lastId l2 (lastId l1 p) := by
  induction l1 generalizing p with
  | nil => rfl
  | cons r t ih =>
    cases r with
    | mk j y =>
      rw [List.cons_append, lastId_cons, lastId_cons]
      exact ih _

theorem lastId_reverse (l : List (Nat × α)) (q : Option Nat) :
    lastId l.reverse q = headId l q := by
  cases l with
  | nil => rfl
  | cons r t =>
    cases r with
    | mk i x =>
      rw [List.reverse_cons, lastId_concat, headId_cons]

theorem chainQ_congr {h h2 : List (Nat × Node α)} {l : List (Nat × α)}
    (hsame : ∀ r ∈ l, lookupN h2 r.1 = lookupN h r.1) :
    ∀ {p q : Option Nat}, chainQ h p l q → chainQ h2 p l q := by
  induction l with
  | nil => intro p q hc; trivial
  | cons r t ih =>
    intro p q hc
    cases r with
    | mk i x =>
      rcases hc with ⟨hl, hc2⟩
      refine ⟨?_, ih (fun r hr => hsame r (List.mem_cons_of_mem _ hr)) hc2⟩
      rw [hsame (i, x) (List.mem_cons_self _ _)]
      exact hl

theorem chainQ_append {h : List (Nat × Node α)} (l1 l2 : List (Nat × α)) :
    ∀ {p q : Option Nat},
      chainQ h p (l1 ++ l2) q ↔
        chainQ h p l1 (headId l2 q) ∧ chainQ h (lastId l1 p) l2 q := by
  induction l1 with
  | nil =>
    intro p q
    simp [chainQ, lastId_nil]
  | cons r t ih =>
    intro p q
    cases r with
    | mk i x =>
      rw [List.cons_append]
      show (lookupN h i = some ⟨x, headId (t ++ l2) q, p⟩ ∧
              chainQ h (some i) (t ++ l2) q) ↔ _
      rw [headId_append, ih, lastId_cons]
      show _ ↔ ((lookupN h i = some ⟨x, headId t (headId l2 q), p⟩ ∧
              chainQ h (some i) t (headId l2 q)) ∧ chainQ h (lastId t (some i)) l2 q)
      tauto

theorem chainQ_lookup_of_mem {h : List (Nat × Node α)} {l : List (Nat × α)} :
    ∀ {p q : Option Nat}, chainQ h p l q → ∀ r ∈ l, ∃ nd : Node α,
      lookupN h r.1 = some nd ∧ nd.elem = r.2 := by
  induction l with
  | nil => intro p q hc r hr; cases hr
  | cons a t ih =>
    intro p q hc r hr
    cases a with
    | mk i x =>
      rcases hc with ⟨hl, hc2⟩
      rcases List.mem_cons.mp hr with ha | ht
      · subst ha
        exact ⟨_, hl, rfl⟩
      · exact ih hc2 r ht

theorem chainQ_getElem {h : List (Nat × Node α)} {l : List (Nat × α)} :
    ∀ {p q : Option Nat}, chainQ h p l q → ∀ n : Nat, ∀ r : Nat × α,
      l[n]? = some r →
      lookupN h r.1 =
        some ⟨r.2, headId (l.drop (n + 1)) q, lastId (l.take n) p⟩ := by
  induction l with
  | nil => intro p q hc n r hr; simp at hr
  | cons a t ih =>
    intro p q hc n r hr
    cases a with
    | mk i x =>
      rcases hc with ⟨hl, hc2⟩
      cases n with
      | zero =>
        simp at hr
        subst hr
        simpa [lastId_nil] using hl
      | succ n =>
        have hr2 : t[n]? = some r := by simpa using hr
        have := ih hc2 n r hr2
        rw [List.drop_succ_cons, List.take_succ_cons, lastId_cons]
        exact this

theorem swapNode_swapNode (nd : Node α) : swapNode (swapNode nd) = nd := by
  cases nd; rfl

theorem swapH_cons (q : Nat × Node α) (t : List (Nat × Node α)) :
    swapH (q :: t) = (q.1, swapNode q.2) :: swapH t := rfl

theorem swapH_swapH (h : List (Nat × Node α)) : swapH (swapH h) = h := by
  induction h with
  | nil => rfl
  | cons q t ih => simp [swapH_cons, swapNode_swapNode, ih]

theorem rev_rev (s : Deque α) : rev (rev s) = s := by
  cases s; simp [rev, swapH_swapH]

theorem lookupN_swapH (h : List (Nat × Node α)) (i : Nat) :
    lookupN (swapH h) i = (lookupN h i).map swapNode := by
  induction h with
  | nil => rfl
  | cons q t ih =>
    by_cases hi : i = q.1 <;> simp [swapH_cons, lookupN, hi, ih]

theorem keys_swapH (h : List (Nat × Node α)) :
    (swapH h).map Prod.fst = h.map Prod.fst := by
  induction h with
  | nil => rfl
  | cons q t ih => simp [swapH_cons, ih]

theorem updN_swapH (h : List (Nat × Node α)) (i : Nat) (nd : Node α) :
    updN (swapH h) i (swapNode nd) = swapH (updN h i nd) := by
  induction h with
  | nil => rfl
  | cons q t ih =>
    by_cases hq : q.1 = i <;> simp [swapH_cons, updN, hq, ih]

theorem updN_swapH2 (h : List (Nat × Node α)) (i : Nat) (nd : Node α) :
    updN (swapH h) i nd = swapH (updN h i (swapNode nd)) := by
  have := updN_swapH h i (swapNode nd)
  rwa [swapNode_swapNode] at this

theorem remN_swapH (h : List (Nat × Node α)) (i : Nat) :
    remN (swapH h) i = swapH (remN h i) := by
  induction h with
  | nil => rfl
  | cons q t ih =>
    by_cases hq : q.1 = i <;> simp [swapH_cons, remN, hq, ih]

theorem linkRefs_swapH (h : List (Nat × Node α)) (i : Nat) :
    linkRefs (swapH h) i = linkRefs h i := by
  induction h with
  | nil => rfl
  | cons q t ih =>
    simp only [swapH_cons, linkRefs, swapNode, ih]
    ring

theorem refs_swap (h : List (Nat × Node α)) (a b : Option Nat) (f i : Nat) :
    refs ⟨swapH h, a, b, f⟩ i = refs ⟨h, b, a, f⟩ i := by
  simp only [refs, linkRefs_swapH]
  ring

theorem setNext_eq_rev (s : Deque α) (i : Nat) (n : Option Nat) :
    setNext s i n = rev (setPrev (rev s) i n) := by
  rcases s with ⟨h, hd, tl, f⟩
  simp only [setNext, setPrev, rev, lookupN_swapH]
  cases hnd : lookupN h i with
  | none => simp [swapH_swapH]
  | some nd =>
    simp only [Option.map_some']
    show (⟨updN h i { nd with next := n }, hd, tl, f⟩ : Deque α) = _
    simp only [updN_swapH2, swapH_swapH]
    rfl

theorem push_back_eq_rev (s : Deque α) (x : α) :
    s.push_back x = rev ((rev s).push_front x) := by
  rcases s with ⟨h, hd, tl, f⟩
  cases tl with
  | none =>
    show (⟨(f, ⟨x, none, none⟩) :: h, some f, some f, f + 1⟩ : Deque α)
        = ⟨(f, swapNode ⟨x, none, none⟩) :: swapH (swapH h), some f, some f, f + 1⟩
    rw [swapH_swapH]
    rfl
  | some oldtail =>
    have hset := setNext_eq_rev
      (⟨(f, ⟨x, none, some oldtail⟩) :: h, hd, some oldtail, f + 1⟩ : Deque α)
      oldtail (some f)
    show ({ setNext (⟨(f, ⟨x, none, some oldtail⟩) :: h, hd, some oldtail, f + 1⟩ :
        Deque α) oldtail (some f) with tail := some f } : Deque α) = _
    rw [hset]
    rfl

theorem setPrev_rev_eq (s : Deque α) (i : Nat) (n : Option Nat) :
    setPrev (rev s) i n = rev (setNext s i n) := by
  rw [setNext_eq_rev, rev_rev]

theorem pop_back_eq_rev (s : Deque α) :
    s.pop_back = mapPR rev ((rev s).pop_front) := by
  rcases s with ⟨h, hd, tl, f⟩
  cases tl with
  | none =>
    show PopResult.empty (⟨h, hd, none, f⟩ : Deque α)
        = PopResult.empty (⟨swapH (swapH h), hd, none, f⟩ : Deque α)
    rw [swapH_swapH]
  | some oldtail =>
    simp only [Deque.pop_back, Deque.pop_front, rev, lookupN_swapH]
    cases hnd : lookupN h oldtail with
    | none => rfl
    | some nd =>
      simp only [Option.map_some']
      dsimp only [swapNode]
      cases hp : nd.prev with
      | none =>
        rw [updN_swapH2]
        dsimp only [swapNode]
        rw [refs_swap, remN_swapH]
        by_cases hc :
            refs (⟨updN h oldtail ⟨nd.elem, nd.next, none⟩, none, none, f⟩ : Deque α) oldtail = 0 <;>
          simp [hc, mapPR, rev, swapH_swapH]
      | some newtail =>
        rw [updN_swapH2]
        dsimp only [swapNode]
        rw [show (⟨swapH (updN h oldtail ⟨nd.elem, nd.next, none⟩), none, hd, f⟩ : Deque α)
            = rev (⟨updN h oldtail ⟨nd.elem, nd.next, none⟩, hd, none, f⟩ : Deque α) from rfl]
        rw [setPrev_rev_eq]
        generalize setNext (⟨updN h oldtail ⟨nd.elem, nd.next, none⟩, hd, none, f⟩ : Deque α)
          newtail none = Y
        rcases Y with ⟨yn, yh, yt, yf⟩
        dsimp only [rev]
        rw [refs_swap, remN_swapH]
        by_cases hc : refs (⟨yn, yh, some newtail, yf⟩ : Deque α) oldtail = 0 <;>
          simp [hc, mapPR, rev, swapH_swapH]

theorem peek_back_eq_rev (s : Deque α) : s.peek_back = (rev s).peek_front := by
  rcases s with ⟨h, hd, tl, f⟩
  cases tl with
  | none => rfl
  | some i =>
    show (lookupN h i).map Node.elem = (lookupN (swapH h) i).map Node.elem
    rw [lookupN_swapH]
    cases lookupN h i <;> rfl

theorem map_swapNode_eq_some (o : Option (Node α)) (nd : Node α) :
    o.map swapNode = some nd ↔ o = some (swapNode nd) := by
  cases o with
  | none => simp
  | some a =>
    simp only [Option.map_some', Option.some.injEq]
    constructor
    · intro hh; rw [← hh, swapNode_swapNode]
    · intro hh; rw [hh, swapNode_swapNode]

theorem chainQ_rev (h : List (Nat × Node α)) (l : List (Nat × α)) :
    ∀ p q : Option Nat, chainQ (swapH h) q l.reverse p ↔ chainQ h p l q := by
  induction l with
  | nil => intro p q; exact ⟨fun _ => trivial, fun _ => trivial⟩
  | cons r t ih =>
    intro p q
    cases r with
    | mk i x =>
      rw [List.reverse_cons, chainQ_append, headId_cons, lastId_reverse]
      simp only [chainQ, headId_nil, and_true]
      rw [ih, lookupN_swapH, map_swapNode_eq_some]
      dsimp only [swapNode]
      tauto

theorem mem_of_getLast2 {l : List (Nat × α)} {a : Nat × α}
    (hl : l.getLast? = some a) : a ∈ l := by
  induction l with
  | nil => cases hl
  | cons r t ih =>
    cases t with
    | nil =>
      simp at hl
      simp [hl]
    | cons r2 t2 =>
      rw [List.getLast?_cons_cons] at hl
      exact List.mem_cons_of_mem _ (ih hl)

theorem linkRefs_eq_zero {h : List (Nat × Node α)} {i : Nat}
    (hno : ∀ q ∈ h, q.2.next ≠ some i ∧ q.2.prev ≠ some i) :
    linkRefs h i = 0 := by
  induction h with
  | nil => rfl
  | cons q t ih =>
    have hq := hno q (List.mem_cons_self _ _)
    rw [linkRefs, if_neg hq.1, if_neg hq.2,
      ih fun r hr => hno r (List.mem_cons_of_mem _ hr)]

theorem chain_links {h : List (Nat × Node α)} {l : List (Nat × α)} :
    ∀ {p q : Option Nat}, chainQ h p l q → ∀ r ∈ l, ∀ nd : Node α,
      lookupN h r.1 = some nd →
      (nd.next = q ∨ ∃ k, k ∈ ids l ∧ nd.next = some k) ∧
      (nd.prev = p ∨ ∃ k, k ∈ ids l ∧ nd.prev = some k) := by
  induction l with
  | nil => intro p q _ r hr; cases hr
  | cons a t ih =>
    intro p q hc r hr nd hnd
    cases a with
    | mk i x =>
      rcases hc with ⟨hl, hc2⟩
      rcases List.mem_cons.mp hr with ha | ht
      · subst ha
        rw [hnd] at hl
        injection hl with hl
        subst hl
        constructor
        · cases t with
          | nil => exact Or.inl rfl
          | cons b t2 =>
            exact Or.inr ⟨b.1, by simp [ids, headId], by cases b; simp [headId]⟩
        · exact Or.inl rfl
      · rcases ih hc2 r ht nd hnd with ⟨h1, h2⟩
        constructor
        · rcases h1 with h1 | ⟨k, hk1, hk2⟩
          · subst h1
            exact Or.inl rfl
          · exact Or.inr ⟨k, by simp [ids] at hk1 ⊢; exact Or.inr hk1, hk2⟩
        · rcases h2 with h2 | ⟨k, hk1, hk2⟩
          · exact Or.inr ⟨i, by simp [ids], h2⟩
          · exact Or.inr ⟨k, by simp [ids] at hk1 ⊢; exact Or.inr hk1, hk2⟩

theorem wf_nodes_nil {s : Deque α} (hw : Wf s []) : s.nodes = [] := by
  rw [List.eq_nil_iff_forall_not_mem]
  intro q hq
  have := hw.keysSub q hq
  simp [ids] at this

theorem wf_ids_lt_fresh {s : Deque α} {l : List (Nat × α)} (hw : Wf s l)
    {i : Nat} (hi : i ∈ ids l) : i < s.fresh := by
  rcases List.mem_map.mp hi with ⟨r, hr, hfst⟩
  rcases chainQ_lookup_of_mem hw.chain r hr with ⟨nd, hnd, -⟩
  rcases List.mem_map.mp (mem_keys_of_lookupN hnd) with ⟨q, hq, hq1⟩
  have := hw.freshBound q hq
  omega

theorem Wf_rev {s : Deque α} {l : List (Nat × α)} (hw : Wf s l) :
    Wf (rev s) l.reverse := by
  refine ⟨?_, ?_, ?_, ?_, ?_, ?_, ?_⟩
  · show s.tail = _
    rw [hw.tail_eq, List.head?_reverse]
  · show s.head = _
    rw [hw.head_eq, List.getLast?_reverse]
  · exact (chainQ_rev s.nodes l none none).mpr hw.chain
  · show (ids l.reverse).Nodup
    rw [ids, List.map_reverse, List.nodup_reverse]
    exact hw.nodup
  · intro q hq
    have hk : q.1 ∈ (swapH s.nodes).map Prod.fst := List.mem_map_of_mem _ hq
    rw [keys_swapH] at hk
    rcases List.mem_map.mp hk with ⟨q0, hq0, hfst⟩
    have hmem := hw.keysSub q0 hq0
    show q.1 ∈ ids l.reverse
    rw [ids, List.map_reverse, List.mem_reverse, ← hfst]
    exact hmem
  · intro q hq
    have hk : q.1 ∈ (swapH s.nodes).map Prod.fst := List.mem_map_of_mem _ hq
    rw [keys_swapH] at hk
    rcases List.mem_map.mp hk with ⟨q0, hq0, hfst⟩
    have := hw.freshBound q0 hq0
    show q.1 < s.fresh
    omega
  · show ((swapH s.nodes).map Prod.fst).Nodup
    rw [keys_swapH]
    exact hw.keysND

theorem Wf_rev_inv {s : Deque α} {l : List (Nat × α)}
    (hw : Wf (rev s) l.reverse) : Wf s l := by
  have := Wf_rev hw
  rwa [rev_rev, List.reverse_reverse] at this

theorem push_front_wf {s : Deque α} {l : List (Nat × α)} (hw : Wf s l) (x : α) :
    Wf (s.push_front x) ((s.fresh, x) :: l) := by
  rcases s with ⟨n, hd, tl, f⟩
  cases l with
  | nil =>
    have hn : n = [] := wf_nodes_nil hw
    have hhd : hd = none := by simpa using hw.head_eq
    have htl : tl = none := by simpa using hw.tail_eq
    subst hn; subst hhd; subst htl
    show Wf (⟨[(f, ⟨x, none, none⟩)], some f, some f, f + 1⟩ : Deque α) [(f, x)]
    refine ⟨rfl, rfl, ⟨?_, trivial⟩, by simp [ids], ?_, ?_, by simp⟩
    · show lookupN [(f, ⟨x, none, none⟩)] f = some ⟨x, headId [] none, none⟩
      rw [lookupN, if_pos rfl]
      rfl
    · intro q hq
      rw [List.mem_singleton] at hq
      subst hq
      simp [ids]
    · intro q hq
      rw [List.mem_singleton] at hq
      subst hq
      show f < f + 1
      omega
  | cons r t =>
    cases r with
    | mk h0 y =>
      have hhd : hd = some h0 := by simpa using hw.head_eq
      subst hhd
      rcases hw.chain with ⟨hl0, hc⟩
      have hh0f : h0 < f := wf_ids_lt_fresh hw (by simp [ids])
      have hne : ¬ h0 = f := by omega
      have hne2 : ¬ f = h0 := by omega
      have htidsf : ∀ k, k ∈ ids t → k < f := by
        intro k hk
        exact wf_ids_lt_fresh hw (by simp [ids]; right; simpa [ids] using hk)
      have hh0t : h0 ∉ ids t := by
        have hnd := hw.nodup
        rw [show ids ((h0, y) :: t) = h0 :: ids t from rfl, List.nodup_cons] at hnd
        exact hnd.1
      have hlk : lookupN ((f, (⟨x, some h0, none⟩ : Node α)) :: n) h0
          = some (⟨y, headId t none, none⟩ : Node α) := by
        rw [lookupN, if_neg hne]
        exact hl0
      have hstate : Deque.push_front (⟨n, some h0, tl, f⟩ : Deque α) x
          = ⟨(f, ⟨x, some h0, none⟩) :: updN n h0 ⟨y, headId t none, some f⟩,
             some f, tl, f + 1⟩ := by
        simp only [Deque.push_front, setPrev, hlk]
        rw [updN, if_neg hne2]
      rw [hstate]
      refine ⟨rfl, ?_, ⟨?_, ?_, ?_⟩, ?_, ?_, ?_, ?_⟩
      · show tl = _
        rw [List.getLast?_cons_cons]
        exact hw.tail_eq
      · show lookupN ((f, ⟨x, some h0, none⟩) ::
            updN n h0 ⟨y, headId t none, some f⟩) f
            = some ⟨x, headId ((h0, y) :: t) none, none⟩
        rw [lookupN, if_pos rfl, headId_cons]
      · show lookupN ((f, ⟨x, some h0, none⟩) ::
            updN n h0 ⟨y, headId t none, some f⟩) h0
            = some ⟨y, headId t none, some f⟩
        rw [lookupN, if_neg hne, lookupN_updN, if_pos rfl, hl0]
        rfl
      · refine chainQ_congr ?_ hc
        intro r hr
        have hrf : r.1 < f := htidsf r.1 (List.mem_map_of_mem _ hr)
        have hrh0 : ¬ r.1 = h0 := by
          intro hh
          exact hh0t (hh ▸ List.mem_map_of_mem _ hr)
        rw [lookupN, if_neg (by omega : ¬ r.1 = f), lookupN_updN, if_neg hrh0]
      · show (f :: ids ((h0, y) :: t)).Nodup
        rw [List.nodup_cons]
        refine ⟨?_, hw.nodup⟩
        intro hmem
        exact absurd (wf_ids_lt_fresh hw hmem : f < f) (lt_irrefl f)
      · intro q hq
        rcases List.mem_cons.mp hq with hq1 | hq2
        · subst hq1
          simp [ids]
        · rcases mem_updN_elim hq2 with hq3 | ⟨hq4, -⟩
          · subst hq3
            simp [ids]
          · have := hw.keysSub q hq4
            show q.1 ∈ ids ((f, x) :: (h0, y) :: t)
            simp [ids] at this ⊢
            tauto
      · intro q hq
        rcases List.mem_cons.mp hq with hq1 | hq2
        · subst hq1
          show f < f + 1
          omega
        · rcases mem_updN_elim hq2 with hq3 | ⟨hq4, -⟩
          · subst hq3
            show h0 < f + 1
            omega
          · have hlt : q.1 < f := hw.freshBound q hq4
            show q.1 < f + 1
            omega
      · show (f :: (updN n h0 ⟨y, headId t none, some f⟩).map Prod.fst).Nodup
        rw [keys_updN, List.nodup_cons]
        refine ⟨?_, hw.keysND⟩
        intro hmem
        rcases List.mem_map.mp hmem with ⟨q, hq, hfst⟩
        have hlt : q.1 < f := hw.freshBound q hq
        omega

theorem Wf_new : Wf (Deque.new : Deque α) [] :=
  ⟨rfl, rfl, trivial, List.nodup_nil, fun q hq => absurd hq (List.not_mem_nil q),
   fun q hq => absurd hq (List.not_mem_nil q), List.nodup_nil⟩

theorem push_back_wf {s : Deque α} {l : List (Nat × α)} (hw : Wf s l) (x : α) :
    Wf (s.push_back x) (l ++ [(s.fresh, x)]) := by
  rw [push_back_eq_rev]
  have h1 := push_front_wf (Wf_rev hw) x
  have h2 := Wf_rev h1
  rw [show (rev s).fresh = s.fresh from rfl] at h2
  rwa [List.reverse_cons, List.reverse_reverse] at h2

theorem pop_front_nil {s : Deque α} (hw : Wf s []) : s.pop_front = .empty s := by
  rcases s with ⟨n, hd, tl, f⟩
  have hhd : hd = none := by simpa using hw.head_eq
  subst hhd
  rfl

theorem getLast2_cons_isSome (r : Nat × α) (t : List (Nat × α)) :
    ∃ a, (r :: t).getLast? = some a := by
  induction t generalizing r with
  | nil => exact ⟨r, rfl⟩
  | cons r2 t2 ih =>
    rw [List.getLast?_cons_cons]
    exact ih r2

theorem pop_front_ok {s : Deque α} {i : Nat} {x : α} {t : List (Nat × α)}
    (hw : Wf s ((i, x) :: t)) :
    ∃ s2 : Deque α, s.pop_front = .ok x s2 ∧ Wf s2 t := by
  rcases s with ⟨n, hd, tl, f⟩
  have hhd : hd = some i := by simpa using hw.head_eq
  subst hhd
  rcases hw.chain with ⟨hli, hct⟩
  cases t with
  | nil =>
    rw [headId_nil] at hli
    have hz : refs (⟨updN n i ⟨x, none, none⟩, none, none, f⟩ : Deque α) i = 0 := by
      have hlr : linkRefs (updN n i (⟨x, none, none⟩ : Node α)) i = 0 := by
        apply linkRefs_eq_zero
        intro q hq
        rcases mem_updN_elim hq with hq1 | ⟨hq2, hq3⟩
        · subst hq1
          exact ⟨by simp, by simp⟩
        · have hqi := hw.keysSub q hq2
          simp [ids] at hqi
          exact absurd hqi hq3
      simp [refs, hlr]
    refine ⟨⟨remN (updN n i ⟨x, none, none⟩) i, none, none, f⟩, ?_, ?_⟩
    · simp only [Deque.pop_front, hli]
      rw [if_pos hz]
    · refine ⟨rfl, rfl, trivial, List.nodup_nil, ?_, ?_, ?_⟩
      · intro q hq
        rcases mem_remN hq with ⟨hq1, hq2⟩
        rcases mem_updN_elim hq1 with hq3 | ⟨hq4, -⟩
        · exact (hq2 (congrArg Prod.fst hq3)).elim
        · have hqi := hw.keysSub q hq4
          simp [ids] at hqi
          exact (hq2 hqi).elim
      · intro q hq
        rcases mem_remN hq with ⟨hq1, hq2⟩
        rcases mem_updN_elim hq1 with hq3 | ⟨hq4, -⟩
        · exact (hq2 (congrArg Prod.fst hq3)).elim
        · exact hw.freshBound q hq4
      · show ((remN (updN n i ⟨x, none, none⟩) i).map Prod.fst).Nodup
        have hsub := (remN_sublist (updN n i (⟨x, none, none⟩ : Node α)) i).map Prod.fst
        have hnds : ((updN n i (⟨x, none, none⟩ : Node α)).map Prod.fst).Nodup := by
          rw [keys_updN]
          exact hw.keysND
        exact hnds.sublist hsub
  | cons r t2 =>
    cases r with
    | mk j z =>
      rw [headId_cons] at hli
      rcases hct with ⟨hlj, hct2⟩
      have hnd : (i :: j :: ids t2).Nodup := hw.nodup
      rw [List.nodup_cons] at hnd
      have hij : i ≠ j := fun hh => hnd.1 (hh ▸ List.mem_cons_self j _)
      have hit2 : i ∉ ids t2 := fun hh => hnd.1 (List.mem_cons_of_mem _ hh)
      have hnd2 := hnd.2
      rw [List.nodup_cons] at hnd2
      have hjt2 : j ∉ ids t2 := hnd2.1
      have htl : tl = ((j, z) :: t2).getLast?.map Prod.fst := by
        have h0 := hw.tail_eq
        rwa [List.getLast?_cons_cons] at h0
      rcases getLast2_cons_isSome (j, z) t2 with ⟨a, ha⟩
      have hta : tl = some a.1 := by rw [htl, ha]; rfl
      have hamem : a ∈ (j, z) :: t2 := mem_of_getLast2 ha
      have hai : a.1 ≠ i := by
        intro hh
        rcases List.mem_cons.mp hamem with h1 | h2
        · rw [h1] at hh
          exact hij hh.symm
        · exact hit2 (hh ▸ List.mem_map_of_mem Prod.fst h2)
      have hlkj : lookupN (updN n i (⟨x, none, none⟩ : Node α)) j
          = some (⟨z, headId t2 none, some i⟩ : Node α) := by
        rw [lookupN_updN, if_neg (fun hh => hij hh.symm), hlj]
      have hz : refs (⟨updN (updN n i ⟨x, none, none⟩) j ⟨z, headId t2 none, none⟩,
          some j, tl, f⟩ : Deque α) i = 0 := by
        have hlr : linkRefs (updN (updN n i (⟨x, none, none⟩ : Node α)) j
            (⟨z, headId t2 none, none⟩ : Node α)) i = 0 := by
          apply linkRefs_eq_zero
          intro q hq
          rcases mem_updN_elim hq with hq1 | ⟨hq2, hq3⟩
          · subst hq1
            constructor
            · show headId t2 none ≠ some i
              cases t2 with
              | nil => simp [headId_nil]
              | cons b t3 =>
                cases b with
                | mk bi bz =>
                  rw [headId_cons]
                  intro hh
                  injection hh with hh
                  exact hit2 (hh ▸ List.mem_cons_self bi _)
            · simp
          · rcases mem_updN_elim hq2 with hq4 | ⟨hq5, hq6⟩
            · subst hq4
              exact ⟨by simp, by simp⟩
            · have hqk : lookupN n q.1 = some q.2 := by
                cases q
                exact lookupN_of_mem hw.keysND (by assumption)
              have hqid : q.1 ∈ i :: j :: ids t2 := hw.keysSub q hq5
              have hqt2 : q.1 ∈ ids t2 := by
                rcases List.mem_cons.mp hqid with h1 | hq7
                · exact absurd h1 hq6
                · rcases List.mem_cons.mp hq7 with h2 | h3
                  · exact absurd h2 hq3
                  · exact h3
              rcases List.mem_map.mp hqt2 with ⟨r, hr, hrft⟩
              have hcl := chain_links hct2 r hr q.2 (by rw [hrft]; exact hqk)
              constructor
              · rcases hcl.1 with h1 | ⟨k, hk1, hk2⟩
                · rw [h1]; simp
                · rw [hk2]
                  intro hh
                  injection hh with hh
                  exact hit2 (hh ▸ hk1)
              · rcases hcl.2 with h1 | ⟨k, hk1, hk2⟩
                · rw [h1]
                  intro hh
                  injection hh with hh
                  exact hij hh.symm
                · rw [hk2]
                  intro hh
                  injection hh with hh
                  exact hit2 (hh ▸ hk1)
        have hhd2 : ¬ (some j = some i) := fun hh => hij (Option.some.inj hh).symm
        have htl2 : ¬ (tl = some i) := by
          rw [hta]
          intro hh
          exact hai (Option.some.inj hh)
        simp [refs, hlr, hhd2, htl2]
      refine ⟨⟨remN (updN (updN n i ⟨x, none, none⟩) j ⟨z, headId t2 none, none⟩) i,
          some j, tl, f⟩, ?_, ?_⟩
      · simp only [Deque.pop_front, hli, setPrev, hlkj]
        rw [if_pos hz]
      · refine ⟨rfl, htl, ⟨?_, ?_⟩, hnd.2, ?_, ?_, ?_⟩
        · show lookupN (remN (updN (updN n i ⟨x, none, none⟩) j
              ⟨z, headId t2 none, none⟩) i) j = some ⟨z, headId t2 none, none⟩
          rw [lookupN_remN, if_neg (fun hh => hij hh.symm), lookupN_updN,
            if_pos rfl, hlkj]
          rfl
        · refine chainQ_congr ?_ hct2
          intro r hr
          have hr1 : ¬ r.1 = i := fun hh => hit2 (hh ▸ List.mem_map_of_mem Prod.fst hr)
          have hr2 : ¬ r.1 = j := fun hh => hjt2 (hh ▸ List.mem_map_of_mem Prod.fst hr)
          rw [lookupN_remN, if_neg hr1, lookupN_updN, if_neg hr2,
            lookupN_updN, if_neg hr1]
        · intro q hq
          rcases mem_remN hq with ⟨hq1, hq2⟩
          rcases mem_updN_elim hq1 with hq3 | ⟨hq4, hq5⟩
          · rw [hq3]
            show j ∈ ids ((j, z) :: t2)
            exact List.mem_cons_self j _
          · rcases mem_updN_elim hq4 with hq6 | ⟨hq7, hq8⟩
            · exact (hq2 (congrArg Prod.fst hq6)).elim
            · have hqid : q.1 ∈ i :: j :: ids t2 := hw.keysSub q hq7
              show q.1 ∈ j :: ids t2
              rcases List.mem_cons.mp hqid with h1 | h2
              · exact (hq8 h1).elim
              · exact h2
        · intro q hq
          rcases mem_remN hq with ⟨hq1, hq2⟩
          rcases mem_updN_elim hq1 with hq3 | ⟨hq4, -⟩
          · rw [hq3]
            show j < f
            exact wf_ids_lt_fresh hw (by simp [ids])
          · rcases mem_updN_elim hq4 with hq6 | ⟨hq7, -⟩
            · exact (hq2 (congrArg Prod.fst hq6)).elim
            · exact hw.freshBound q hq7
        · show ((remN (updN (updN n i ⟨x, none, none⟩) j
              ⟨z, headId t2 none, none⟩) i).map Prod.fst).Nodup
          have hsub := (remN_sublist (updN (updN n i (⟨x, none, none⟩ : Node α)) j
            (⟨z, headId t2 none, none⟩ : Node α)) i).map Prod.fst
          have hnds : ((updN (updN n i (⟨x, none, none⟩ : Node α)) j
              (⟨z, headId t2 none, none⟩ : Node α)).map Prod.fst).Nodup := by
            rw [keys_updN, keys_updN]
            exact hw.keysND
          exact hnds.sublist hsub

theorem pop_back_nil {s : Deque α} (hw : Wf s []) : s.pop_back = .empty s := by
  rcases s with ⟨n, hd, tl, f⟩
  have htl : tl = none := by simpa using hw.tail_eq
  subst htl
  rfl

theorem pop_back_ok {s : Deque α} {j : Nat} {y : α} {t : List (Nat × α)}
    (hw : Wf s (t ++ [(j, y)])) :
    ∃ s2 : Deque α, s.pop_back = .ok y s2 ∧ Wf s2 t := by
  have hrev : Wf (rev s) ((j, y) :: t.reverse) := by
    have h1 := Wf_rev hw
    rwa [List.reverse_append, List.reverse_singleton, List.singleton_append] at h1
  rcases pop_front_ok hrev with ⟨s2, hpop, hwf⟩
  refine ⟨rev s2, ?_, ?_⟩
  · rw [pop_back_eq_rev, hpop]
    rfl
  · have h2 := Wf_rev hwf
    rwa [List.reverse_reverse] at h2

theorem reachable_wf {s : Deque α} (hr : Reachable s) : ∃ l, Wf s l := by
  induction hr with
  | new => exact ⟨[], Wf_new⟩
  | pushF x _ ih =>
    rcases ih with ⟨l, hw⟩
    exact ⟨_, push_front_wf hw x⟩
  | pushB x _ ih =>
    rcases ih with ⟨l, hw⟩
    exact ⟨_, push_back_wf hw x⟩
  | popF _ hpop ih =>
    rcases ih with ⟨l, hw⟩
    cases l with
    | nil =>
      rw [pop_front_nil hw] at hpop
      cases hpop
    | cons r t =>
      cases r with
      | mk i x =>
        rcases pop_front_ok hw with ⟨s3, hpop2, hwf2⟩
        rw [hpop2] at hpop
        injection hpop with h1 h2
        exact ⟨t, h2 ▸ hwf2⟩
  | popB _ hpop ih =>
    rcases ih with ⟨l, hw⟩
    rcases List.eq_nil_or_concat l with rfl | ⟨t, a, rfl⟩
    · rw [pop_back_nil hw] at hpop
      cases hpop
    · cases a with
      | mk j y =>
        rw [List.concat_eq_append] at hw
        rcases pop_back_ok hw with ⟨s3, hpop2, hwf2⟩
        rw [hpop2] at hpop
        injection hpop with h1 h2
        exact ⟨t, h2 ▸ hwf2⟩

theorem peek_front_eq {s : Deque α} {l : List (Nat × α)} (hw : Wf s l) :
    s.peek_front = l.head?.map Prod.snd := by
  rcases s with ⟨n, hd, tl, f⟩
  cases l with
  | nil =>
    have hhd : hd = none := by simpa using hw.head_eq
    subst hhd
    rfl
  | cons r t =>
    cases r with
    | mk i x =>
      have hhd : hd = some i := by simpa using hw.head_eq
      subst hhd
      rcases hw.chain with ⟨hli, -⟩
      show (lookupN n i).map Node.elem = some x
      rw [hli]
      rfl

theorem peek_back_eq {s : Deque α} {l : List (Nat × α)} (hw : Wf s l) :
    s.peek_back = l.getLast?.map Prod.snd := by
  rw [peek_back_eq_rev, peek_front_eq (Wf_rev hw), List.head?_reverse]

theorem popAllFront_eq {l : List (Nat × α)} :
    ∀ {s : Deque α}, Wf s l → ∀ fuel : Nat, l.length ≤ fuel →
      popAllFront fuel s = l.map Prod.snd := by
  induction l with
  | nil =>
    intro s hw fuel _
    cases fuel with
    | zero => rfl
    | succ fu =>
      simp only [popAllFront]
      rw [pop_front_nil hw]
      rfl
  | cons r t ih =>
    intro s hw fuel hlen
    cases r with
    | mk i x =>
      cases fuel with
      | zero => simp at hlen
      | succ fu =>
        rcases pop_front_ok hw with ⟨s2, hpop, hw2⟩
        simp only [popAllFront]
        rw [hpop]
        show x :: popAllFront fu s2 = x :: t.map Prod.snd
        rw [ih hw2 fu (by simp at hlen; omega)]

theorem popAllBack_rev (fuel : Nat) : ∀ s : Deque α,
    popAllBack fuel s = popAllFront fuel (rev s) := by
  induction fuel with
  | zero => intro s; rfl
  | succ fu ih =>
    intro s
    simp only [popAllBack, popAllFront, pop_back_eq_rev]
    cases hc : (rev s).pop_front with
    | empty s2 => rfl
    | ok v s2 =>
      show v :: popAllBack fu (rev s2) = v :: popAllFront fu s2
      rw [ih (rev s2), rev_rev]
    | panic => rfl

theorem popAllBack_eq {s : Deque α} {l : List (Nat × α)} (hw : Wf s l)
    (fuel : Nat) (hlen : l.length ≤ fuel) :
    popAllBack fuel s = (l.map Prod.snd).reverse := by
  rw [popAllBack_rev fuel s,
    popAllFront_eq (Wf_rev hw) fuel (by simpa using hlen), List.map_reverse]

theorem wf_length_le {s : Deque α} {l : List (Nat × α)} (hw : Wf s l) :
    l.length ≤ s.nodes.length := by
  have hsub : ids l ⊆ s.nodes.map Prod.fst := by
    intro k hk
    rcases List.mem_map.mp hk with ⟨r, hr, hfst⟩
    rcases chainQ_lookup_of_mem hw.chain r hr with ⟨nd, hnd, -⟩
    rw [← hfst]
    exact mem_keys_of_lookupN hnd
  have hle := (List.Nodup.subperm hw.nodup hsub).length_le
  simpa [ids] using hle

theorem headId_eq_head2 (l : List (Nat × α)) :
    headId l none = l.head?.map Prod.fst := by
  cases l with
  | nil => rfl
  | cons r t => cases r; rfl

theorem traverseFwd_eq {l : List (Nat × α)} :
    ∀ {h : List (Nat × Node α)} {p : Option Nat}, chainQ h p l none →
      ∀ fuel : Nat, l.length ≤ fuel →
      traverseFwd h fuel (headId l none) = l.map Prod.snd := by
  induction l with
  | nil =>
    intro h p _ fuel _
    cases fuel <;> rfl
  | cons r t ih =>
    intro h p hc fuel hlen
    cases r with
    | mk i x =>
      rcases hc with ⟨hli, hct⟩
      cases fuel with
      | zero => simp at hlen
      | succ fu =>
        rw [headId_cons]
        simp only [traverseFwd]
        rw [hli]
        show x :: traverseFwd h fu (headId t none) = x :: t.map Prod.snd
        rw [ih hct fu (by simp at hlen; omega)]

theorem toListFwd_eq {s : Deque α} {l : List (Nat × α)} (hw : Wf s l) :
    s.toListFwd = l.map Prod.snd := by
  rw [Deque.toListFwd, show s.head = headId l none from
    by rw [headId_eq_head2]; exact hw.head_eq]
  exact traverseFwd_eq hw.chain s.nodes.length (wf_length_le hw)

theorem popFrontOrder_eq {s : Deque α} {l : List (Nat × α)} (hw : Wf s l) :
    s.popFrontOrder = l.map Prod.snd :=
  popAllFront_eq hw s.nodes.length (wf_length_le hw)

theorem popBackOrder_eq {s : Deque α} {l : List (Nat × α)} (hw : Wf s l) :
    s.popBackOrder = (l.map Prod.snd).reverse :=
  popAllBack_eq hw s.nodes.length (wf_length_le hw)

theorem dropLoop_wf {l : List (Nat × α)} :
    ∀ {s : Deque α}, Wf s l → ∀ fuel : Nat, l.length ≤ fuel →
      Wf (dropLoop fuel s) [] := by
  induction l with
  | nil =>
    intro s hw fuel _
    cases fuel with
    | zero => exact hw
    | succ fu =>
      simp only [dropLoop]
      rw [pop_front_nil hw]
      exact hw
  | cons r t ih =>
    intro s hw fuel hlen
    cases r with
    | mk i x =>
      cases fuel with
      | zero => simp at hlen
      | succ fu =>
        rcases pop_front_ok hw with ⟨s2, hpop, hw2⟩
        simp only [dropLoop]
        rw [hpop]
        exact ih hw2 fu (by simp at hlen; omega)

theorem getLast2_eq_none {l : List (Nat × α)} (hl : l.getLast? = none) :
    l = [] := by
  cases l with
  | nil => rfl
  | cons r t =>
    rcases getLast2_cons_isSome r t with ⟨a, ha⟩
    rw [ha] at hl
    cases hl

theorem wf_nodes_ne_nil {s : Deque α} {r : Nat × α} {t : List (Nat × α)}
    (hw : Wf s (r :: t)) : s.nodes ≠ [] := by
  intro hnil
  rcases chainQ_lookup_of_mem hw.chain r (List.mem_cons_self r t) with ⟨nd, hnd, -⟩
  rw [hnil] at hnd
  cases hnd

theorem wf_pos {s : Deque α} {l : List (Nat × α)} (hw : Wf s l)
    {a : Nat} {na : Node α} (hla : lookupN s.nodes a = some na) :
    ∃ m : Nat, ∃ r : Nat × α, l[m]? = some r ∧ r.1 = a ∧
      na = ⟨r.2, headId (l.drop (m + 1)) none, lastId (l.take m) none⟩ := by
  have hmem := hw.keysSub (a, na) (mem_of_lookupN hla)
  rcases List.mem_map.mp hmem with ⟨r, hr, hfst⟩
  rcases List.mem_iff_getElem?.mp hr with ⟨m, hm⟩
  have hc := chainQ_getElem hw.chain m r hm
  rw [hfst] at hc
  rw [hla] at hc
  injection hc with hc
  exact ⟨m, r, hm, hfst, hc⟩

theorem wf_head_prev {s : Deque α} {l : List (Nat × α)} (hw : Wf s l)
    {i : Nat} {ni : Node α} (hh : s.head = some i)
    (hl : lookupN s.nodes i = some ni) : ni.prev = none := by
  rw [hw.head_eq] at hh
  cases l with
  | nil => cases hh
  | cons r t =>
    rcases hw.chain with ⟨hlr, -⟩
    have hri : r.1 = i := by
      simpa using hh
    rw [hri, hl] at hlr
    injection hlr with hlr
    rw [hlr]

theorem wf_tail_next {s : Deque α} {l : List (Nat × α)} (hw : Wf s l)
    {i : Nat} {ni : Node α} (hh : s.tail = some i)
    (hl : lookupN s.nodes i = some ni) : ni.next = none := by
  have hl2 : lookupN (rev s).nodes i = some (swapNode ni) := by
    show lookupN (swapH s.nodes) i = _
    rw [lookupN_swapH, hl]
    rfl
  exact wf_head_prev (Wf_rev hw) (show (rev s).head = some i from hh) hl2

theorem wf_bidir {s : Deque α} {l : List (Nat × α)} (hw : Wf s l)
    {a b : Nat} {na nb : Node α} (hla : lookupN s.nodes a = some na)
    (hlb : lookupN s.nodes b = some nb) :
    (na.next = some b ↔ nb.prev = some a) := by
  constructor
  · intro hnext
    rcases wf_pos hw hla with ⟨m, r, hm, hr1, hr2⟩
    rw [hr2] at hnext
    have hnext2 : (l[m + 1]?).map Prod.fst = some b := by
      have h9 : headId (l.drop (m + 1)) none = some b := hnext
      rwa [headId_eq_head2, List.head?_drop] at h9
    rcases Option.map_eq_some'.mp hnext2 with ⟨rb, hrb, hrb1⟩
    have hb := chainQ_getElem hw.chain (m + 1) rb hrb
    rw [hrb1] at hb
    rw [hlb] at hb
    injection hb with hb
    rw [hb]
    show lastId (l.take (m + 1)) none = some a
    rw [List.take_succ, hm]
    cases r with
    | mk r1 r2 =>
      rw [show (some ((r1, r2) : Nat × α)).toList = [(r1, r2)] from rfl,
        lastId_concat]
      exact congrArg some hr1
  · intro hprev
    rcases wf_pos hw hlb with ⟨m, rb, hm, hrb1, hrb2⟩
    rw [hrb2] at hprev
    have hprev2 : lastId (l.take m) none = some a := hprev
    cases m with
    | zero =>
      rw [List.take_zero, lastId_nil] at hprev2
      cases hprev2
    | succ k =>
      have hk : k < l.length := by
        rcases List.getElem?_eq_some_iff.mp hm with ⟨hlt, -⟩
        omega
      rw [List.take_succ, List.getElem?_eq_getElem hk] at hprev2
      have h5 : lastId (l.take k ++ [l.get ⟨k, hk⟩]) none
          = some (l.get ⟨k, hk⟩).1 :=
        lastId_concat _ _ _ _
      have hprev3 : some (l.get ⟨k, hk⟩).1 = some a := by
        rw [← h5]
        exact hprev2
      have hc : (l.get ⟨k, hk⟩).1 = a := Option.some.inj hprev3
      have ha := chainQ_getElem hw.chain k (l.get ⟨k, hk⟩)
        (List.getElem?_eq_getElem hk)
      rw [hc] at ha
      rw [hla] at ha
      injection ha with ha
      rw [ha]
      show headId (l.drop (k + 1)) none = some b
      rw [headId_eq_head2, List.head?_drop, hm]
      exact congrArg some hrb1

theorem wf_structInv {s : Deque α} {l : List (Nat × α)} (hw : Wf s l) :
    StructInv s := by
  refine ⟨?_, ?_, ?_, ?_, ?_⟩
  · constructor
    · intro hh
      rw [hw.head_eq] at hh
      cases l with
      | nil => exact wf_nodes_nil hw
      | cons r t => cases r; cases hh
    · intro hh
      cases l with
      | nil => rw [hw.head_eq]; rfl
      | cons r t => exact absurd hh (wf_nodes_ne_nil hw)
  · constructor
    · intro hh
      rw [hw.tail_eq] at hh
      cases l with
      | nil => exact wf_nodes_nil hw
      | cons r t =>
        have : (r :: t).getLast? = none := by
          cases hgl : (r :: t).getLast? with
          | none => rfl
          | some a => rw [hgl] at hh; cases hh
        exact absurd (getLast2_eq_none this) (by simp)
    · intro hh
      cases l with
      | nil => rw [hw.tail_eq]; rfl
      | cons r t => exact absurd hh (wf_nodes_ne_nil hw)
  · intro i j ni nj hi hj
    exact wf_bidir hw hi hj
  · intro i ni hh hl
    exact wf_head_prev hw hh hl
  · intro i ni hh hl
    exact wf_tail_next hw hh hl

theorem tryBorrowMut_after_tryBorrow {f0 f2 : BorrowFlag}
    (hb : tryBorrow f0 = some f2) : tryBorrowMut f2 = none := by
  cases f0 with
  | unused =>
    simp only [tryBorrow] at hb
    injection hb with hb
    rw [← hb]
    rfl
  | reading n =>
    simp only [tryBorrow] at hb
    injection hb with hb
    rw [← hb]
    rfl
  | writing =>
    simp only [tryBorrow] at hb
    cases hb

/-- Concrete well-formedness of the scenario state sA: three nodes
allocated in order 0, 1, 2, chained 2 (elem 3) -> 1 (elem 2) -> 0 (elem 1). -/
theorem sA_wf : Wf sA [(2, 3), (1, 2), (0, 1)] := by
  refine ⟨rfl, rfl, ⟨rfl, rfl, rfl, trivial⟩, by decide, by decide, by decide,
    by decide⟩

/-- C1: every public operation (push_front, push_back, pop_front, pop_back)
preserves the structural invariants: on every state reachable from the
empty list the invariants hold, and they still hold after any further
push_front, push_back, pop_front or pop_back. -/
theorem c1_invariants_preserved {α : Type} (s : Deque α) (hr : Reachable s) :
    StructInv s ∧ (∀ x : α, StructInv (s.push_front x)) ∧
    (∀ x : α, StructInv (s.push_back x)) ∧
    StructInv s.pop_front_st ∧ StructInv s.pop_back_st := by
  rcases reachable_wf hr with ⟨l, hw⟩
  refine ⟨wf_structInv hw, fun x => wf_structInv (push_front_wf hw x),
    fun x => wf_structInv (push_back_wf hw x), ?_, ?_⟩
  · cases l with
    | nil =>
      have h2 : s.pop_front_st = s := by
        rw [Deque.pop_front_st, pop_front_nil hw]
        rfl
      rw [h2]
      exact wf_structInv hw
    | cons r t =>
      cases r with
      | mk i x =>
        rcases pop_front_ok hw with ⟨s2, hpop, hw2⟩
        have h2 : s.pop_front_st = s2 := by
          rw [Deque.pop_front_st, hpop]
          rfl
        rw [h2]
        exact wf_structInv hw2
  · rcases List.eq_nil_or_concat l with rfl | ⟨t, a, rfl⟩
    · have h2 : s.pop_back_st = s := by
        rw [Deque.pop_back_st, pop_back_nil hw]
        rfl
      rw [h2]
      exact wf_structInv hw
    · cases a with
      | mk j y =>
        rw [List.concat_eq_append] at hw
        rcases pop_back_ok hw with ⟨s3, hpop, hw3⟩
        have h2 : s.pop_back_st = s3 := by
          rw [Deque.pop_back_st, hpop]
          rfl
        rw [h2]
        exact wf_structInv hw3

/-- Witness for C1 at the concrete reachable state sA. -/
theorem c1_invariants_preserved_witness :
    StructInv sA ∧ (∀ x : Nat, StructInv (sA.push_front x)) ∧
    (∀ x : Nat, StructInv (sA.push_back x)) ∧
    StructInv sA.pop_front_st ∧ StructInv sA.pop_back_st :=
  c1_invariants_preserved sA
    (Reachable.pushF 3 (Reachable.pushF 2 (Reachable.pushF 1 Reachable.new)))

/-- C2: from the empty list, push_front 1, 2, 3 makes pop_front return 3
then 2; push_front 4, 5 then makes pop_front return 5 then 4; the next
pop_front returns 1, and the one after that returns the empty result. -/
theorem c2_pop_front_scenario :
    sA.pop_front_val = some 3 ∧ sB.pop_front_val = some 2 ∧
    sD.pop_front_val = some 5 ∧ sE.pop_front_val = some 4 ∧
    sF.pop_front_val = some 1 ∧ sG.pop_front_val = none ∧
    sG.pop_front.isEmptyR = true := by
  decide

theorem applyPushes_wf {α : Type} :
    ∀ (ops : List (PushOp α)) (s : Deque α) (l : List (Nat × α)),
      Wf s l → ∃ l2, Wf (applyPushes s ops) l2 := by
  intro ops
  induction ops with
  | nil => intro s l hw; exact ⟨l, hw⟩
  | cons op t ih =>
    intro s l hw
    cases op with
    | front x => exact ih _ _ (push_front_wf hw x)
    | back x => exact ih _ _ (push_back_wf hw x)

/-- C3 counterexample: after push_front 1 then push_front 2, the forward
traversal order is [2, 1] while the reverse of the pop_front order is
[1, 2], so the claimed equality with the reverse of the pop_front order
fails (the forward order equals the pop_front order itself). -/
theorem c3_counterexample :
    ¬ (c3s.toListFwd = c3s.popFrontOrder.reverse ∧
       c3s.toListFwd = c3s.popBackOrder.reverse) := by
  decide

/-- C3 amended: for every sequence of push_front and push_back operations
applied to an empty list, the forward traversal order of the resulting
list equals the sequence of values returned by repeated pop_front, and
equals the sequence of values returned by repeated pop_back read
backward. -/
theorem c3_amended {α : Type} (ops : List (PushOp α)) :
    (applyPushes Deque.new ops).toListFwd
        = (applyPushes Deque.new ops).popFrontOrder ∧
    (applyPushes Deque.new ops).toListFwd
        = (applyPushes Deque.new ops).popBackOrder.reverse := by
  rcases applyPushes_wf ops Deque.new [] Wf_new with ⟨l, hw⟩
  constructor
  · rw [toListFwd_eq hw, popFrontOrder_eq hw]
  · rw [toListFwd_eq hw, popBackOrder_eq hw, List.reverse_reverse]

/-- C4: on every reachable state, the unique-ownership assertion on the
pop extraction path never fails: neither pop_front nor pop_back can reach
the defensive-fatal panic branch of Rc::try_unwrap().ok().unwrap(). -/
theorem c4_no_panic {α : Type} (s : Deque α) (hr : Reachable s) :
    s.pop_front ≠ PopResult.panic ∧ s.pop_back ≠ PopResult.panic := by
  rcases reachable_wf hr with ⟨l, hw⟩
  constructor
  · cases l with
    | nil =>
      rw [pop_front_nil hw]
      intro hh
      cases hh
    | cons r t =>
      cases r with
      | mk i x =>
        rcases pop_front_ok hw with ⟨s2, hpop, -⟩
        rw [hpop]
        intro hh
        cases hh
  · rcases List.eq_nil_or_concat l with rfl | ⟨t, a, rfl⟩
    · rw [pop_back_nil hw]
      intro hh
      cases hh
    · cases a with
      | mk j y =>
        rw [List.concat_eq_append] at hw
        rcases pop_back_ok hw with ⟨s2, hpop, -⟩
        rw [hpop]
        intro hh
        cases hh

/-- Witness for C4 at the concrete reachable state sA. -/
theorem c4_no_panic_witness :
    sA.pop_front ≠ PopResult.panic ∧ sA.pop_back ≠ PopResult.panic :=
  c4_no_panic sA
    (Reachable.pushF 3 (Reachable.pushF 2 (Reachable.pushF 1 Reachable.new)))

/-- C5: after push_front 1, 2, 3: peek_front views 3 and peek_back views
1; writing 30 through the exclusive view returned by peek_front_mut makes
the next pop_front return 30. -/
theorem c5_peek_scenario :
    sA.peek_front = some 3 ∧ sA.peek_back = some 1 ∧
    sA.peek_front_mut = some 3 ∧
    (sA.peek_front_mut_write 30).pop_front_val = some 30 := by
  decide

/-- C6: the consuming iterator steps are exactly the pops (next is
pop_front, next_back is pop_back), the two ends may be interleaved, both
ends report exhaustion exactly when the underlying list is empty, and
concretely after push_front 1, 2, 3 it yields 3 from the front, 1 from
the back, 2 from the front, then absence from either end. -/
theorem c6_into_iter (it : IntoIter Nat) (hr : Reachable it.inner) :
    it.next = it.inner.pop_front ∧
    it.next_back = it.inner.pop_back ∧
    (it.next.isEmptyR = true ↔ it.inner.nodes = []) ∧
    (it.next_back.isEmptyR = true ↔ it.inner.nodes = []) ∧
    itA.next.val = some 3 ∧ itB.next_back.val = some 1 ∧
    itC.next.val = some 2 ∧ itD.next.isEmptyR = true ∧
    itD.next_back.isEmptyR = true ∧ itD.inner.nodes = [] := by
  rcases reachable_wf hr with ⟨l, hw⟩
  refine ⟨rfl, rfl, ?_, ?_, by decide, by decide, by decide, by decide,
    by decide, by decide⟩
  · constructor
    · intro hh
      cases l with
      | nil => exact wf_nodes_nil hw
      | cons r t =>
        cases r with
        | mk i x =>
          rcases pop_front_ok hw with ⟨s2, hpop, -⟩
          rw [IntoIter.next, hpop] at hh
          simp [PopResult.isEmptyR] at hh
    · intro hh
      cases l with
      | nil =>
        rw [IntoIter.next, pop_front_nil hw]
        rfl
      | cons r t => exact absurd hh (wf_nodes_ne_nil hw)
  · constructor
    · intro hh
      rcases List.eq_nil_or_concat l with rfl | ⟨t, a, rfl⟩
      · exact wf_nodes_nil hw
      · cases a with
        | mk j y =>
          rw [List.concat_eq_append] at hw
          rcases pop_back_ok hw with ⟨s2, hpop, -⟩
          rw [IntoIter.next_back, hpop] at hh
          simp [PopResult.isEmptyR] at hh
    · intro hh
      cases l with
      | nil =>
        rw [IntoIter.next_back, pop_back_nil hw]
        rfl
      | cons r t => exact absurd hh (wf_nodes_ne_nil hw)

/-- Witness for C6 at the concrete iterator over sA. -/
theorem c6_into_iter_witness :
    itA.next = itA.inner.pop_front ∧
    itA.next_back = itA.inner.pop_back ∧
    (itA.next.isEmptyR = true ↔ itA.inner.nodes = []) ∧
    (itA.next_back.isEmptyR = true ↔ itA.inner.nodes = []) ∧
    itA.next.val = some 3 ∧ itB.next_back.val = some 1 ∧
    itC.next.val = some 2 ∧ itD.next.isEmptyR = true ∧
    itD.next_back.isEmptyR = true ∧ itD.inner.nodes = [] :=
  c6_into_iter itA
    (Reachable.pushF 3 (Reachable.pushF 2 (Reachable.pushF 1 Reachable.new)))

/-- C7: on an empty list (both end handles absent) every pop returns the
explicit empty result and leaves the state unchanged, every peek returns
absence and never a fault (even under arbitrary borrow flags), and
draining keeps yielding nothing for any number of repetitions. -/
theorem c7_empty_behavior {α : Type} (s : Deque α)
    (h1 : s.head = none) (h2 : s.tail = none) :
    s.pop_front = .empty s ∧ s.pop_back = .empty s ∧
    s.pop_front_st = s ∧ s.pop_back_st = s ∧
    s.peek_front = none ∧ s.peek_back = none ∧
    s.peek_front_mut = none ∧ s.peek_back_mut = none ∧
    (∀ fl, peekFrontB s fl = .empty) ∧
    (∀ fl, peekFrontMutB s fl = .empty) ∧
    (∀ fuel, popAllFront fuel s = []) ∧
    (∀ fuel, popAllBack fuel s = []) := by
  rcases s with ⟨n, hd, tl, f⟩
  have h1b : hd = none := h1
  have h2b : tl = none := h2
  subst h1b
  subst h2b
  refine ⟨rfl, rfl, rfl, rfl, rfl, rfl, rfl, rfl, fun fl => rfl,
    fun fl => rfl, fun fuel => ?_, fun fuel => ?_⟩
  · cases fuel <;> rfl
  · cases fuel <;> rfl

/-- Witness for C7 at the concrete empty list. -/
theorem c7_empty_behavior_witness :
    (Deque.new : Deque Nat).pop_front = .empty Deque.new ∧
    (Deque.new : Deque Nat).pop_back = .empty Deque.new ∧
    (Deque.new : Deque Nat).pop_front_st = Deque.new ∧
    (Deque.new : Deque Nat).pop_back_st = Deque.new ∧
    (Deque.new : Deque Nat).peek_front = none ∧
    (Deque.new : Deque Nat).peek_back = none ∧
    (Deque.new : Deque Nat).peek_front_mut = none ∧
    (Deque.new : Deque Nat).peek_back_mut = none ∧
    (∀ fl, peekFrontB (Deque.new : Deque Nat) fl = .empty) ∧
    (∀ fl, peekFrontMutB (Deque.new : Deque Nat) fl = .empty) ∧
    (∀ fuel, popAllFront fuel (Deque.new : Deque Nat) = []) ∧
    (∀ fuel, popAllBack fuel (Deque.new : Deque Nat) = []) :=
  c7_empty_behavior Deque.new rfl rfl

theorem peekFrontMutB_conflict {α : Type} {s : Deque α} {i : Nat}
    {nd : Node α} {fl : Nat → BorrowFlag} (hh : s.head = some i)
    (hl : lookupN s.nodes i = some nd) (hb : tryBorrowMut (fl i) = none) :
    peekFrontMutB s fl = .conflict := by
  unfold peekFrontMutB
  simp only [hh, hl, hb]

/-- C8: while a shared view handed out by peek_front is outstanding (its
shared borrow recorded in the flags), an attempt to take the exclusive
view of the same element via peek_front_mut is a fatal borrow conflict,
never a silent success. -/
theorem c8_shared_blocks_mut {α : Type} (s : Deque α) (fl : Nat → BorrowFlag)
    (v : α) (fl2 : Nat → BorrowFlag)
    (hp : peekFrontB s fl = .ok v fl2) :
    peekFrontMutB s fl2 = .conflict := by
  cases hh : s.head with
  | none =>
    unfold peekFrontB at hp
    simp only [hh] at hp
    cases hp
  | some i =>
    cases hl : lookupN s.nodes i with
    | none =>
      unfold peekFrontB at hp
      simp only [hh, hl] at hp
      cases hp
    | some nd =>
      cases hb : tryBorrow (fl i) with
      | none =>
        unfold peekFrontB at hp
        simp only [hh, hl, hb] at hp
        cases hp
      | some f2 =>
        unfold peekFrontB at hp
        simp only [hh, hl, hb, PeekResult.ok.injEq] at hp
        have hfi : fl2 i = f2 := by
          rw [← hp.2]
          simp [fupd]
        refine peekFrontMutB_conflict hh hl ?_
        rw [hfi]
        exact tryBorrowMut_after_tryBorrow hb

/-- Witness for C8: a concrete one-element list whose head cell holds an
outstanding shared borrow from peek_front. -/
theorem c8_shared_blocks_mut_witness :
    peekFrontMutB (Deque.new.push_front (1 : Nat))
      (fupd (fun _ => BorrowFlag.unused) 0 (.reading 1)) = .conflict :=
  c8_shared_blocks_mut (Deque.new.push_front (1 : Nat))
    (fun _ => BorrowFlag.unused) 1
    (fupd (fun _ => BorrowFlag.unused) 0 (.reading 1)) rfl

/-- C9: teardown by repeated pop_front terminates for every finite list:
with fuel equal to the node count the drain loop empties the list, the
number of successful pops equals the number of elements, and the next
pop_front then returns the empty result, which is the loop exit. -/
theorem c9_teardown {α : Type} (s : Deque α) (l : List (Nat × α))
    (hw : Wf s l) :
    (popAllFront s.nodes.length s).length = l.length ∧
    (dropLoop s.nodes.length s).nodes = [] ∧
    (dropLoop s.nodes.length s).head = none ∧
    (dropLoop s.nodes.length s).pop_front
      = .empty (dropLoop s.nodes.length s) := by
  have h1 := popAllFront_eq hw s.nodes.length (wf_length_le hw)
  have h2 := dropLoop_wf hw s.nodes.length (wf_length_le hw)
  refine ⟨by rw [h1]; simp, wf_nodes_nil h2, ?_, pop_front_nil h2⟩
  rw [h2.head_eq]
  rfl

/-- Witness for C9 at the concrete three-element state sA. -/
theorem c9_teardown_witness :
    (popAllFront sA.nodes.length sA).length
        = ([((2 : Nat), (3 : Nat)), (1, 2), (0, 1)]).length ∧
    (dropLoop sA.nodes.length sA).nodes = [] ∧
    (dropLoop sA.nodes.length sA).head = none ∧
    (dropLoop sA.nodes.length sA).pop_front
      = .empty (dropLoop sA.nodes.length sA) :=
  c9_teardown sA [(2, 3), (1, 2), (0, 1)] sA_wf

/-- C10: pop_front removes only the first element: the subsequent
pop_front order is the original sequence with its head removed and
peek_back is unchanged by the pop; symmetrically, pop_back removes only
the last element and peek_front is unchanged. -/
theorem c10_frame {α : Type} (s : Deque α) (i : Nat) (x : α)
    (m : List (Nat × α)) (j : Nat) (y : α)
    (hw : Wf s ((i, x) :: (m ++ [(j, y)]))) :
    (∃ s2, s.pop_front = .ok x s2 ∧
      s2.popFrontOrder = (m ++ [(j, y)]).map Prod.snd ∧
      s2.peek_back = some y ∧ s.peek_back = some y) ∧
    (∃ s3, s.pop_back = .ok y s3 ∧
      s3.popFrontOrder = ((i, x) :: m).map Prod.snd ∧
      s3.peek_front = some x ∧ s.peek_front = some x) := by
  constructor
  · rcases pop_front_ok hw with ⟨s2, hpop, hw2⟩
    refine ⟨s2, hpop, popFrontOrder_eq hw2, ?_, ?_⟩
    · rw [peek_back_eq hw2, List.getLast?_concat]
      rfl
    · rw [peek_back_eq hw,
        show (i, x) :: (m ++ [(j, y)]) = ((i, x) :: m) ++ [(j, y)] from
          (List.cons_append _ _ _).symm,
        List.getLast?_concat]
      rfl
  · have hw2 : Wf s (((i, x) :: m) ++ [(j, y)]) := by
      rwa [List.cons_append]
    rcases pop_back_ok hw2 with ⟨s3, hpop, hw3⟩
    refine ⟨s3, hpop, popFrontOrder_eq hw3, ?_, ?_⟩
    · rw [peek_front_eq hw3]
      rfl
    · rw [peek_front_eq hw]
      rfl

/-- Witness for C10 at the concrete three-element state sA. -/
theorem c10_frame_witness :
    (∃ s2, sA.pop_front = .ok 3 s2 ∧
      s2.popFrontOrder = ([((1 : Nat), (2 : Nat)), (0, 1)]).map Prod.snd ∧
      s2.peek_back = some 1 ∧ sA.peek_back = some 1) ∧
    (∃ s3, sA.pop_back = .ok 1 s3 ∧
      s3.popFrontOrder = ([((2 : Nat), (3 : Nat)), (1, 2)]).map Prod.snd ∧
      s3.peek_front = some 3 ∧ sA.peek_front = some 3) :=
  c10_frame sA 2 3 [(1, 2)] 0 1 sA_wf

end BadSafeDeque
